import Mathlib

/-! Shallow embedding of the adaptive softmax components of the flop repository
    (src/examples/wt103/utils/adaptive_modules.py): AdaptiveEmbedding and
    AdaptiveLogSoftmax, as taken from Transformer-XL.

    Modelling conventions:
    - a float tensor of shape [N, d] is a list of N rows, each a list over an
      arbitrary commutative ring R (float arithmetic abstracted to ring operations);
    - an integer id tensor is a `List Int`;
    - `F.log_softmax(x, dim=1)` acts row-independently; it is modelled by an
      abstract row function `ls : List R -> List R` passed to `forward`
      (the host framework supplies it; no claim depends on its numeric value);
    - `mask.nonzero().squeeze()` is the increasing list of positions satisfying
      the mask; `index_select` / `index_copy_` / slice `copy_` are the
      corresponding list operations;
    - the `raise RuntimeError` in AdaptiveLogSoftmax.forward, and the runtime
      error torch.gather raises on an out-of-range index, are modelled by
      `Except.error` with distinct messages. -/

namespace Flop

variable {R : Type} [CommRing R]

/-- Inner product of two rows: the scalar underlying F.linear. -/
def dot (a b : List R) : R := (List.zipWith (· * ·) a b).sum

/-- F.linear weight application to a single input row: (W x) as a list of
    row-by-row inner products. -/
def matVec (M : List (List R)) (v : List R) : List R := M.map (fun row => dot row v)

/-- Elementwise vector addition (the bias add of F.linear). -/
def addVec (a b : List R) : List R := List.zipWith (· + ·) a b

/-- Matrix transpose, `proj.t()` in `_compute_logit`. -/
def transposeM (M : List (List R)) : List (List R) :=
  (List.range (M.headD []).length).map (fun j => M.map (fun row => row.getD j 0))

/-- Positions of xs satisfying p, in increasing order:
    `mask.nonzero().squeeze()` for the elementwise boolean mask p over xs. -/
def idxWhere (p : ℤ → Bool) (xs : List ℤ) : List ℕ :=
  (List.range xs.length).filter (fun j => p (xs.getD j 0))

/-- `out.index_copy_(0, idxs, vals)`: write the rows vals at positions idxs. -/
def indexCopy {α : Type} (xs : List α) (idxs : List ℕ) (vals : List α) : List α :=
  (idxs.zip vals).foldl (fun acc pv => acc.set pv.1 pv.2) xs

/-- `out[off : off + vals.length].copy_(vals)`: write vals into a contiguous slot. -/
def sliceCopy {α : Type} (xs : List α) (off : ℕ) (vals : List α) : List α :=
  xs.take off ++ vals ++ xs.drop (off + vals.length)

/-- The per-cluster membership mask `(t >= l_idx) & (t < r_idx)` with
    `l_idx, r_idx = ends[i], ends[i+1]`, used by both forward passes. -/
def clusterMask (ends : List ℕ) (i : ℕ) (t : ℤ) : Bool :=
  decide ((ends.getD i 0 : ℤ) ≤ t) && decide (t < (ends.getD (i+1) 0 : ℤ))

/-- State of an AdaptiveEmbedding module after `__init__`.
    `cutoffs0` is the constructor argument `cutoffs`; the attribute
    `self.cutoffs = cutoffs + [n_token]` is the derived `AdaptiveEmbedding.cutoffs`.
    `emb_layers` holds each cluster's embedding table (one row per in-cluster id),
    `emb_projs` each cluster's `d_proj × d_emb_i` projection matrix, and
    `emb_scale` the scalar `d_proj ** 0.5` (kept abstract: a square root has no
    defining equation in a bare ring signature). -/
structure AdaptiveEmbedding (R : Type) where
  n_token : ℕ
  d_embed : ℕ
  d_proj : ℕ
  div_val : ℕ
  cutoffs0 : List ℕ
  emb_layers : List (List (List R))
  emb_projs : List (List (List R))
  emb_scale : R

/-- `self.cutoffs = cutoffs + [n_token]`. -/
def AdaptiveEmbedding.cutoffs (m : AdaptiveEmbedding R) : List ℕ :=
  m.cutoffs0 ++ [m.n_token]

/-- `self.cutoff_ends = [0] + self.cutoffs`. -/
def AdaptiveEmbedding.cutoff_ends (m : AdaptiveEmbedding R) : List ℕ :=
  0 :: m.cutoffs

/-- One iteration of the cluster loop in AdaptiveEmbedding.forward: select the
    flat positions whose id is in cluster i, shift, look up the cluster table,
    project, and index_copy the rows back; a cluster with no matching ids is
    skipped (the `continue`). -/
def AdaptiveEmbedding.clusterStep (m : AdaptiveEmbedding R) (inp_flat : List ℤ)
    (acc : List (List R)) (i : ℕ) : List (List R) :=
  let l : ℤ := m.cutoff_ends.getD i 0
  let indices_i := idxWhere (clusterMask m.cutoff_ends i) inp_flat
  if indices_i = [] then acc
  else
    let inp_i : List ℕ := indices_i.map (fun j => (inp_flat.getD j 0 - l).toNat)
    let emb_i : List (List R) := inp_i.map (fun t => (m.emb_layers.getD i []).getD t [])
    let emb_proj_i := emb_i.map (fun e => matVec (m.emb_projs.getD i []) e)
    indexCopy acc indices_i emb_proj_i

/-- AdaptiveEmbedding.forward on the flattened id tensor (the source flattens,
    computes, reshapes; the reshape is outside the flat model). The zero output
    buffer is filled cluster by cluster and finally scaled by emb_scale. -/
def AdaptiveEmbedding.forward (m : AdaptiveEmbedding R) (inp_flat : List ℤ) :
    List (List R) :=
  let emb_flat := (List.range m.cutoffs.length).foldl (m.clusterStep inp_flat)
      (List.replicate inp_flat.length (List.replicate m.d_proj 0))
  emb_flat.map (fun row => row.map (fun x => m.emb_scale * x))

/-- Reference value: cluster i's projected table row for id t, before scaling. -/
def AdaptiveEmbedding.clusterRow (m : AdaptiveEmbedding R) (i : ℕ) (t : ℤ) : List R :=
  matVec (m.emb_projs.getD i [])
    ((m.emb_layers.getD i []).getD (t - (m.cutoff_ends.getD i 0 : ℤ)).toNat [])

/-- State of an AdaptiveLogSoftmax module after `__init__`.
    `cutoffs0` is the constructor argument; `out_weights`/`out_biases` are the
    weights and biases of `out_layers` (cluster 0's weight has
    `shortlist_size + n_clusters` rows by construction), `out_projs` the
    per-cluster projections. -/
structure AdaptiveLogSoftmax (R : Type) where
  n_token : ℕ
  d_embed : ℕ
  d_proj : ℕ
  div_val : ℕ
  cutoffs0 : List ℕ
  out_weights : List (List (List R))
  out_biases : List (List R)
  out_projs : List (List (List R))
  keep_order : Bool

/-- `self.cutoffs = cutoffs + [n_token]`. -/
def AdaptiveLogSoftmax.cutoffs (m : AdaptiveLogSoftmax R) : List ℕ :=
  m.cutoffs0 ++ [m.n_token]

/-- `self.cutoff_ends = [0] + self.cutoffs` (equal to the loop's `cutoff_values`). -/
def AdaptiveLogSoftmax.cutoff_ends (m : AdaptiveLogSoftmax R) : List ℕ :=
  0 :: m.cutoffs

/-- `self.shortlist_size = self.cutoffs[0]`. -/
def AdaptiveLogSoftmax.shortlist_size (m : AdaptiveLogSoftmax R) : ℕ :=
  m.cutoffs.headD 0

/-- `self.n_clusters = len(self.cutoffs) - 1`. -/
def AdaptiveLogSoftmax.n_clusters (m : AdaptiveLogSoftmax R) : ℕ :=
  m.cutoffs.length - 1

/-- `self.head_size = self.shortlist_size + self.n_clusters`. -/
def AdaptiveLogSoftmax.head_size (m : AdaptiveLogSoftmax R) : ℕ :=
  m.shortlist_size + m.n_clusters

/-- `_compute_logit`: with a projection, hidden is first multiplied by proj.t()
    and then passed through the weight and bias. -/
def compute_logit (hidden : List (List R)) (weight : List (List R)) (bias : List R)
    (proj : Option (List (List R))) : List (List R) :=
  match proj with
  | none => hidden.map (fun h => addVec (matVec weight h) bias)
  | some p => hidden.map (fun h => addVec (matVec weight (matVec (transposeM p) h)) bias)

/-- The head log-probabilities: `F.log_softmax(self._compute_logit(hidden,
    weights[0], biases[0], out_projs[0]), dim=1)`, with the row function ls. -/
def AdaptiveLogSoftmax.headLogprob (m : AdaptiveLogSoftmax R) (ls : List R → List R)
    (hidden : List (List R)) : List (List R) :=
  (compute_logit hidden (m.out_weights.getD 0 []) (m.out_biases.getD 0 [])
    (some (m.out_projs.getD 0 []))).map ls

/-- The vector `logprob_i` computed for cluster i on the selected positions
    indices_i: the head gather for i = 0, and for i > 0 the head column `[:, -i]`
    (negative indexing: column `width - i`) plus the tail log-softmax gathered at
    the shifted targets. -/
def AdaptiveLogSoftmax.clusterLogprob (m : AdaptiveLogSoftmax R) (ls : List R → List R)
    (hidden : List (List R)) (target : List ℤ) (hlp : List (List R)) (i : ℕ)
    (indices_i : List ℕ) : List R :=
  let l : ℤ := m.cutoff_ends.getD i 0
  let target_i : List ℕ := indices_i.map (fun j => (target.getD j 0 - l).toNat)
  let head_logprob_i : List (List R) := indices_i.map (fun j => hlp.getD j [])
  if i = 0 then
    List.zipWith (fun row t => row.getD t 0) head_logprob_i target_i
  else
    let hidden_i := indices_i.map (fun j => hidden.getD j [])
    let tail_logprob_i := (compute_logit hidden_i (m.out_weights.getD i [])
        (m.out_biases.getD i []) (some (m.out_projs.getD i []))).map ls
    List.zipWith (fun row tt => row.getD (row.length - i) 0 + tt.1.getD tt.2 0)
      head_logprob_i (tail_logprob_i.zip target_i)

/-- One iteration of the cluster loop of AdaptiveLogSoftmax.forward, acting on
    the state (nll, offset). An empty selection is the `continue`; otherwise
    -logprob_i is written back at the original positions when order is kept, and
    into the contiguous slot [offset, offset + len) otherwise; offset advances. -/
def AdaptiveLogSoftmax.clusterStep (m : AdaptiveLogSoftmax R) (ls : List R → List R)
    (hidden : List (List R)) (target : List ℤ) (hlp : List (List R)) (ko : Bool)
    (st : List R × ℕ) (i : ℕ) : List R × ℕ :=
  let indices_i := idxWhere (clusterMask m.cutoff_ends i) target
  if indices_i = [] then st
  else
    let logprob_i := m.clusterLogprob ls hidden target hlp i indices_i
    let nll := if ko then indexCopy st.1 indices_i (logprob_i.map (fun x => -x))
               else sliceCopy st.1 st.2 (logprob_i.map (fun x => -x))
    (nll, st.2 + logprob_i.length)

/-- The RuntimeError message of the batch-dimension check. -/
def sizeMismatchMsg : String :=
  "Input and target should have the same size in the batch dimension."

/-- The runtime error torch.gather raises on an out-of-range (or negative) index. -/
def gatherRangeMsg : String := "index out of range in gather"

/-- AdaptiveLogSoftmax.forward. The batch-size check comes first; with no tail
    cluster the head gather is returned directly (torch.gather bound-checks its
    indices); otherwise the cluster loop runs with the effective order flag
    `self.keep_order or keep_order` from the zero nll buffer and offset 0. -/
def AdaptiveLogSoftmax.forward (m : AdaptiveLogSoftmax R) (ls : List R → List R)
    (hidden : List (List R)) (target : List ℤ) (keep_order : Bool) :
    Except String (List R) :=
  if hidden.length ≠ target.length then .error sizeMismatchMsg
  else
    let head_logprob := m.headLogprob ls hidden
    if m.n_clusters = 0 then
      if (head_logprob.zip target).all
          (fun rt => decide (0 ≤ rt.2) && decide (rt.2.toNat < rt.1.length)) then
        .ok (List.zipWith (fun row t => -(row.getD t.toNat 0)) head_logprob target)
      else .error gatherRangeMsg
    else
      let ko := m.keep_order || keep_order
      .ok (((List.range (m.cutoff_ends.length - 1)).foldl
              (m.clusterStep ls hidden target head_logprob ko)
              (List.replicate target.length 0, 0)).1)

/-- Reference value: the logit row a single hidden state h produces for cluster
    i's output layer (one row of `_compute_logit`). -/
def AdaptiveLogSoftmax.logitRow (m : AdaptiveLogSoftmax R) (i : ℕ) (h : List R) :
    List R :=
  addVec (matVec (m.out_weights.getD i []) (matVec (transposeM (m.out_projs.getD i [])) h))
    (m.out_biases.getD i [])

/-- Reference value: the negative log-likelihood the forward pass assigns to a
    single example with hidden state h and target t lying in cluster i, read off
    the per-row structure of the cluster loop. -/
def AdaptiveLogSoftmax.exampleNLL (m : AdaptiveLogSoftmax R) (ls : List R → List R)
    (h : List R) (t : ℤ) (i : ℕ) : R :=
  let hrow := ls (m.logitRow 0 h)
  let l : ℤ := m.cutoff_ends.getD i 0
  if i = 0 then -(hrow.getD (t - l).toNat 0)
  else -(hrow.getD (hrow.length - i) 0 + (ls (m.logitRow i h)).getD (t - l).toNat 0)

/-- The output of the cluster loop when order is not kept: the concatenation, in
    cluster order, of each cluster's negated logprob vector. -/
def AdaptiveLogSoftmax.concatOut (m : AdaptiveLogSoftmax R) (ls : List R → List R)
    (hidden : List (List R)) (target : List ℤ) : List R :=
  (List.range (m.cutoff_ends.length - 1)).flatMap (fun i =>
    (m.clusterLogprob ls hidden target (m.headLogprob ls hidden) i
        (idxWhere (clusterMask m.cutoff_ends i) target)).map (fun x => -x))

/-- The index of the unique cluster whose range holds t (0 when none does). -/
def clusterIndexOf (ends : List ℕ) (t : ℤ) : ℕ :=
  ((List.range (ends.length - 1)).filter (fun i => clusterMask ends i t)).headD 0

/-- Concrete two-cluster embedding instance over the integers (used in
    witnesses): n_token 4, cutoffs [2]. -/
def embEx : AdaptiveEmbedding ℤ :=
  { n_token := 4, d_embed := 2, d_proj := 2, div_val := 1, cutoffs0 := [2]
    emb_layers := [[[1, 0], [0, 1]], [[2, 0], [0, 2]]]
    emb_projs := [[[1, 0], [0, 1]], [[1, 1], [0, 1]]]
    emb_scale := 3 }

/-- Concrete two-cluster softmax instance over the integers (used in
    witnesses): n_token 4, cutoffs [2], head_size 3. -/
def alsEx : AdaptiveLogSoftmax ℤ :=
  { n_token := 4, d_embed := 1, d_proj := 1, div_val := 1, cutoffs0 := [2]
    out_weights := [[[1], [2], [3]], [[5], [7]]]
    out_biases := [[0, 0, 0], [0, 0]]
    out_projs := [[[1]], [[1]]]
    keep_order := false }

/-- alsEx with the construction-time keep_order flag set. -/
def alsExKeep : AdaptiveLogSoftmax ℤ := { alsEx with keep_order := true }

/-- Concrete single-cluster softmax instance: n_token 2, cutoffs empty. -/
def alsFlat : AdaptiveLogSoftmax ℤ :=
  { n_token := 2, d_embed := 1, d_proj := 1, div_val := 1, cutoffs0 := []
    out_weights := [[[1], [2]]], out_biases := [[0, 0]], out_projs := [[[1]]]
    keep_order := false }

/-! Helper lemmas about the list primitives. -/

theorem idxWhere_mem {p : ℤ → Bool} {xs : List ℤ} {j : ℕ} :
    j ∈ idxWhere p xs ↔ j < xs.length ∧ p (xs.getD j 0) = true := by
  simp [idxWhere, List.mem_filter, List.mem_range]

theorem idxWhere_nodup (p : ℤ → Bool) (xs : List ℤ) : (idxWhere p xs).Nodup :=
  (List.nodup_range _).filter _

theorem indexCopy_cons {α : Type} (xs : List α) (i : ℕ) (v : α) (idxs : List ℕ)
    (vals : List α) :
    indexCopy xs (i :: idxs) (v :: vals) = indexCopy (xs.set i v) idxs vals := rfl

theorem indexCopy_length {α : Type} (xs : List α) (idxs : List ℕ) (vals : List α) :
    (indexCopy xs idxs vals).length = xs.length := by
  unfold indexCopy
  generalize idxs.zip vals = ps
  induction ps generalizing xs with
  | nil => rfl
  | cons a l ih => rw [List.foldl_cons, ih]; simp

theorem indexCopy_getD_not_mem {α : Type} (d : α) (xs : List α) (idxs : List ℕ)
    (vals : List α) {j : ℕ} (hj : j ∉ idxs) :
    (indexCopy xs idxs vals).getD j d = xs.getD j d := by
  induction idxs generalizing xs vals with
  | nil => rfl
  | cons i is ih =>
    cases vals with
    | nil => rfl
    | cons v vs =>
      rw [indexCopy_cons, ih _ _ (fun h => hj (List.mem_cons_of_mem _ h))]
      have hne : i ≠ j := fun h => hj (h ▸ List.mem_cons_self i is)
      simp [List.getD_eq_getElem?_getD, List.getElem?_set_ne hne]

theorem indexCopy_getD_map_mem {α : Type} (d : α) (xs : List α) (idxs : List ℕ)
    (f : ℕ → α) {j : ℕ} (hmem : j ∈ idxs) (hnd : idxs.Nodup) (hlt : j < xs.length) :
    (indexCopy xs idxs (idxs.map f)).getD j d = f j := by
  induction idxs generalizing xs with
  | nil => cases hmem
  | cons i is ih =>
    rw [List.map_cons, indexCopy_cons]
    rcases List.mem_cons.mp hmem with rfl | hmem2
    · have hnotin : j ∉ is := (List.nodup_cons.mp hnd).1
      rw [indexCopy_getD_not_mem _ _ _ _ hnotin]
      simp [List.getD_eq_getElem?_getD, List.getElem?_set_self (by simpa using hlt)]
    · exact ih (xs.set i (f i)) hmem2 (List.nodup_cons.mp hnd).2 (by simpa using hlt)

theorem foldl_val_preserve {σ α : Type} (step : σ → ℕ → σ) (val : σ → α) (I : σ → Prop)
    (L : List ℕ) (s0 : σ) (hI0 : I s0) (hIstep : ∀ s i, I s → I (step s i))
    (hskip : ∀ s i, i ∈ L → I s → val (step s i) = val s) :
    val (L.foldl step s0) = val s0 := by
  induction L generalizing s0 with
  | nil => rfl
  | cons a L ih =>
    rw [List.foldl_cons,
      ih _ (hIstep _ _ hI0) (fun s i hi hs => hskip s i (List.mem_cons_of_mem _ hi) hs)]
    exact hskip s0 a (List.mem_cons_self _ _) hI0

theorem foldl_val_establish {σ α : Type} (step : σ → ℕ → σ) (val : σ → α) (I : σ → Prop)
    (L : List ℕ) (i0 : ℕ) (v : α) (s0 : σ) (hI0 : I s0)
    (hIstep : ∀ s i, I s → I (step s i))
    (hskip : ∀ s i, i ∈ L → i ≠ i0 → I s → val (step s i) = val s)
    (hwrite : ∀ s, I s → val (step s i0) = v)
    (hmem : i0 ∈ L) :
    val (L.foldl step s0) = v := by
  induction L generalizing s0 with
  | nil => cases hmem
  | cons a L ih =>
    rw [List.foldl_cons]
    by_cases hmem2 : i0 ∈ L
    · exact ih (step s0 a) (hIstep _ _ hI0)
        (fun s i hi hne hs => hskip s i (List.mem_cons_of_mem _ hi) hne hs) hmem2
    · have ha : a = i0 := by
        rcases List.mem_cons.mp hmem with h | h
        · exact h.symm
        · exact absurd h hmem2
      subst ha
      rw [foldl_val_preserve step val I L _ (hIstep _ _ hI0) hIstep
        (fun s i hi hs => hskip s i (List.mem_cons_of_mem _ hi)
          (fun h => hmem2 (h ▸ hi)) hs)]
      exact hwrite s0 hI0

theorem pairwise_getD_le {ends : List ℕ} (Hpair : List.Pairwise (· ≤ ·) ends)
    {a b : ℕ} (hab : a ≤ b) (hb : b < ends.length) :
    ends.getD a 0 ≤ ends.getD b 0 := by
  rcases Nat.eq_or_lt_of_le hab with rfl | h
  · exact le_refl _
  · rw [List.getD_eq_getElem _ _ (lt_trans h hb), List.getD_eq_getElem _ _ hb]
    exact List.pairwise_iff_get.mp Hpair ⟨a, lt_trans h hb⟩ ⟨b, hb⟩ h

theorem clusterMask_le {ends : List ℕ} {i : ℕ} {t : ℤ}
    (hm : clusterMask ends i t = true) :
    (ends.getD i 0 : ℤ) ≤ t ∧ t < (ends.getD (i+1) 0 : ℤ) := by
  simpa [clusterMask] using hm

theorem clusterMask_disjoint {ends : List ℕ} (Hpair : List.Pairwise (· ≤ ·) ends)
    {i1 i2 : ℕ} (h1 : i1 + 1 < ends.length) (h2 : i2 + 1 < ends.length) (hne : i1 ≠ i2)
    {t : ℤ} (hm1 : clusterMask ends i1 t = true) : clusterMask ends i2 t = false := by
  cases hb : clusterMask ends i2 t
  · rfl
  · exfalso
    obtain ⟨hl1, hr1⟩ := clusterMask_le hm1
    obtain ⟨hl2, hr2⟩ := clusterMask_le hb
    rcases Nat.lt_or_ge i1 i2 with h | h
    · have hle : ends.getD (i1+1) 0 ≤ ends.getD i2 0 := pairwise_getD_le Hpair h
        (lt_trans (Nat.lt_succ_self _) h2)
      exact absurd (lt_of_lt_of_le hr1 (le_trans (by exact_mod_cast hle) hl2))
        (lt_irrefl t)
    · have hlt : i2 < i1 := lt_of_le_of_ne h (Ne.symm hne)
      have hle : ends.getD (i2+1) 0 ≤ ends.getD i1 0 := pairwise_getD_le Hpair hlt
        (lt_trans (Nat.lt_succ_self _) h1)
      exact absurd (lt_of_lt_of_le hr2 (le_trans (by exact_mod_cast hle) hl1))
        (lt_irrefl t)

/-! Bridging lemmas: the batched tensor operations of the forward pass agree,
    row by row, with the per-example reference functions. -/

theorem compute_logit_some (hidden : List (List R)) (w : List (List R)) (b : List R)
    (p : List (List R)) :
    compute_logit hidden w b (some p)
      = hidden.map (fun h => addVec (matVec w (matVec (transposeM p) h)) b) := rfl

theorem getD_map_of_lt {α β : Type} (f : α → β) (l : List α) (dA : α) (dB : β) {j : ℕ}
    (hj : j < l.length) : (l.map f).getD j dB = f (l.getD j dA) := by
  rw [List.getD_eq_getElem _ _ (by simpa using hj), List.getElem_map,
    List.getD_eq_getElem _ _ hj]

theorem headLogprob_length (m : AdaptiveLogSoftmax R) (ls : List R → List R)
    (hidden : List (List R)) : (m.headLogprob ls hidden).length = hidden.length := by
  simp [AdaptiveLogSoftmax.headLogprob, compute_logit]

theorem headLogprob_getD (m : AdaptiveLogSoftmax R) (ls : List R → List R)
    (hidden : List (List R)) {j : ℕ} (hj : j < hidden.length) :
    (m.headLogprob ls hidden).getD j [] = ls (m.logitRow 0 (hidden.getD j [])) := by
  rw [AdaptiveLogSoftmax.headLogprob, compute_logit_some, List.map_map,
    getD_map_of_lt _ _ [] [] hj]
  rfl

theorem clusterLogprob_eq_map (m : AdaptiveLogSoftmax R) (ls : List R → List R)
    (hidden : List (List R)) (target : List ℤ)
    (hlen : hidden.length = target.length) (i : ℕ) (indices : List ℕ)
    (hsub : ∀ j ∈ indices, j < target.length) :
    m.clusterLogprob ls hidden target (m.headLogprob ls hidden) i indices
      = indices.map (fun j =>
          -(m.exampleNLL ls (hidden.getD j []) (target.getD j 0) i)) := by
  unfold AdaptiveLogSoftmax.clusterLogprob
  by_cases hi : i = 0
  · subst hi
    simp only [if_pos rfl]
    rw [List.zipWith_map, List.zipWith_same]
    refine List.map_congr_left (fun j hj => ?_)
    have hjt : j < target.length := hsub j hj
    have hjh : j < hidden.length := hlen ▸ hjt
    rw [headLogprob_getD m ls hidden hjh]
    simp [AdaptiveLogSoftmax.exampleNLL]
  · simp only [if_neg hi]
    rw [compute_logit_some, List.map_map, List.map_map, List.zip_map',
      List.zipWith_map, List.zipWith_same]
    refine List.map_congr_left (fun j hj => ?_)
    have hjt : j < target.length := hsub j hj
    have hjh : j < hidden.length := hlen ▸ hjt
    rw [headLogprob_getD m ls hidden hjh]
    simp [AdaptiveLogSoftmax.exampleNLL, AdaptiveLogSoftmax.logitRow, if_neg hi]

theorem clusterStep_keep_fst_length (m : AdaptiveLogSoftmax R) (ls : List R → List R)
    (hidden : List (List R)) (target : List ℤ) (hlp : List (List R))
    (st : List R × ℕ) (i : ℕ) :
    ((m.clusterStep ls hidden target hlp true st i).1).length = st.1.length := by
  simp only [AdaptiveLogSoftmax.clusterStep]
  by_cases h : idxWhere (clusterMask m.cutoff_ends i) target = []
  · simp [h]
  · simp [h, indexCopy_length]

theorem clusterStep_getD_not_mem (m : AdaptiveLogSoftmax R) (ls : List R → List R)
    (hidden : List (List R)) (target : List ℤ) (hlp : List (List R))
    (st : List R × ℕ) (i : ℕ) {j : ℕ}
    (hj : j ∉ idxWhere (clusterMask m.cutoff_ends i) target) :
    ((m.clusterStep ls hidden target hlp true st i).1).getD j 0 = st.1.getD j 0 := by
  simp only [AdaptiveLogSoftmax.clusterStep]
  by_cases h : idxWhere (clusterMask m.cutoff_ends i) target = []
  · simp [h]
  · simp only [if_neg h, if_pos rfl]
    exact indexCopy_getD_not_mem _ _ _ _ hj

theorem clusterStep_getD_mem (m : AdaptiveLogSoftmax R) (ls : List R → List R)
    (hidden : List (List R)) (target : List ℤ)
    (hlen : hidden.length = target.length)
    (st : List R × ℕ) (i : ℕ) {j : ℕ}
    (hst : st.1.length = target.length)
    (hj : j ∈ idxWhere (clusterMask m.cutoff_ends i) target) :
    ((m.clusterStep ls hidden target (m.headLogprob ls hidden) true st i).1).getD j 0
      = m.exampleNLL ls (hidden.getD j []) (target.getD j 0) i := by
  simp only [AdaptiveLogSoftmax.clusterStep]
  rw [if_neg (List.ne_nil_of_mem hj)]
  simp only [if_pos rfl]
  rw [clusterLogprob_eq_map m ls hidden target hlen i _
    (fun j2 hj2 => (idxWhere_mem.mp hj2).1), List.map_map]
  have hw := indexCopy_getD_map_mem (0 : R) st.1 _
    ((fun x => -x) ∘ (fun j2 => -(m.exampleNLL ls (hidden.getD j2 []) (target.getD j2 0) i)))
    hj (idxWhere_nodup _ _) (by rw [hst]; exact (idxWhere_mem.mp hj).1)
  simpa using hw

theorem forward_ok_of_clusters (m : AdaptiveLogSoftmax R) (ls : List R → List R)
    (hidden : List (List R)) (target : List ℤ) (ko : Bool)
    (HNcl : m.cutoffs0 ≠ []) (hlen : hidden.length = target.length) :
    m.forward ls hidden target ko
      = .ok (((List.range (m.cutoff_ends.length - 1)).foldl
              (m.clusterStep ls hidden target (m.headLogprob ls hidden)
                (m.keep_order || ko))
              (List.replicate target.length 0, 0)).1) := by
  have hn : m.n_clusters ≠ 0 := by
    simp only [AdaptiveLogSoftmax.n_clusters, AdaptiveLogSoftmax.cutoffs,
      List.length_append, List.length_cons, List.length_nil, Nat.add_sub_cancel]
    simpa [List.length_eq_zero] using HNcl
  simp only [AdaptiveLogSoftmax.forward, if_neg (not_not_intro hlen), if_neg hn]

theorem foldKeep_getD (m : AdaptiveLogSoftmax R) (ls : List R → List R)
    (hidden : List (List R)) (target : List ℤ)
    (Hpair : List.Pairwise (· ≤ ·) m.cutoff_ends)
    (hlen : hidden.length = target.length)
    {j i : ℕ} (hj : j < target.length) (hik : i + 1 < m.cutoff_ends.length)
    (hmask : clusterMask m.cutoff_ends i (target.getD j 0) = true) :
    ((List.range (m.cutoff_ends.length - 1)).foldl
        (m.clusterStep ls hidden target (m.headLogprob ls hidden) true)
        (List.replicate target.length 0, 0)).1.getD j 0
      = m.exampleNLL ls (hidden.getD j []) (target.getD j 0) i := by
  refine foldl_val_establish
    (m.clusterStep ls hidden target (m.headLogprob ls hidden) true)
    (fun s : List R × ℕ => s.1.getD j 0)
    (fun s : List R × ℕ => s.1.length = target.length)
    (List.range (m.cutoff_ends.length - 1)) i
    (m.exampleNLL ls (hidden.getD j []) (target.getD j 0) i)
    (List.replicate target.length 0, 0) (by simp) ?_ ?_ ?_ ?_
  · exact fun s i2 hs => (clusterStep_keep_fst_length m ls hidden target _ s i2).trans hs
  · intro s i2 hi2 hne hs
    refine clusterStep_getD_not_mem m ls hidden target _ s i2 (fun hmem => ?_)
    have hmask2 : clusterMask m.cutoff_ends i2 (target.getD j 0) = true :=
      (idxWhere_mem.mp hmem).2
    have hi2b : i2 + 1 < m.cutoff_ends.length := by
      have := List.mem_range.mp hi2
      omega
    rw [clusterMask_disjoint Hpair hik hi2b (fun h => hne (h ▸ rfl)) hmask] at hmask2
    exact Bool.false_ne_true hmask2
  · intro s hs
    exact clusterStep_getD_mem m ls hidden target hlen s i hs
      (idxWhere_mem.mpr ⟨hj, hmask⟩)
  · exact List.mem_range.mpr (by omega)

theorem logitRow_length (m : AdaptiveLogSoftmax R) (i : ℕ) (h : List R) {n : ℕ}
    (hw : (m.out_weights.getD i []).length = n)
    (hb : (m.out_biases.getD i []).length = n) :
    (m.logitRow i h).length = n := by
  simp only [AdaptiveLogSoftmax.logitRow, addVec, matVec, List.length_zipWith,
    List.length_map]
  rw [hw, hb]
  exact Nat.min_self n

/-! Claim theorems. -/

/-- Claim C4: with keep_order requested at the call, for every hidden tensor and
    every target tensor with all targets in [0, n_token), the output entry at
    position j is the negative log-likelihood of the target at input position j
    (the per-example value exampleNLL of its cluster i), however the targets are
    distributed across clusters. -/
theorem C4_keep_order_positional (m : AdaptiveLogSoftmax R) (ls : List R → List R)
    (hidden : List (List R)) (target : List ℤ) (out : List R) (j i : ℕ)
    (Hpair : List.Pairwise (· ≤ ·) m.cutoff_ends)
    (HNcl : m.cutoffs0 ≠ [])
    (hlen : hidden.length = target.length)
    (Htargets : ∀ j2, j2 < target.length →
      0 ≤ target.getD j2 0 ∧ target.getD j2 0 < (m.n_token : ℤ))
    (hres : m.forward ls hidden target true = .ok out)
    (hj : j < target.length) (hik : i + 1 < m.cutoff_ends.length)
    (hmask : clusterMask m.cutoff_ends i (target.getD j 0) = true) :
    out.getD j 0 = m.exampleNLL ls (hidden.getD j []) (target.getD j 0) i := by
  rw [forward_ok_of_clusters m ls hidden target true HNcl hlen] at hres
  simp only [Bool.or_true] at hres
  rw [← Except.ok.inj hres]
  exact foldKeep_getD m ls hidden target Hpair hlen hj hik hmask

/-- Claim C10: order preservation is the OR of the construction-time flag and
    the call-time argument: whenever self.keep_order or the call flag is true,
    every example's negative log-likelihood is written back at its original
    input position. -/
theorem C10_keep_order_is_or (m : AdaptiveLogSoftmax R) (ls : List R → List R)
    (hidden : List (List R)) (target : List ℤ) (ko : Bool) (out : List R) (j i : ℕ)
    (Hpair : List.Pairwise (· ≤ ·) m.cutoff_ends)
    (HNcl : m.cutoffs0 ≠ [])
    (hlen : hidden.length = target.length)
    (heff : m.keep_order = true ∨ ko = true)
    (hres : m.forward ls hidden target ko = .ok out)
    (hj : j < target.length) (hik : i + 1 < m.cutoff_ends.length)
    (hmask : clusterMask m.cutoff_ends i (target.getD j 0) = true) :
    out.getD j 0 = m.exampleNLL ls (hidden.getD j []) (target.getD j 0) i := by
  rw [forward_ok_of_clusters m ls hidden target ko HNcl hlen] at hres
  have hor : (m.keep_order || ko) = true := by
    rcases heff with h | h
    · rw [h]; exact Bool.true_or _
    · rw [h]; exact Bool.or_true _
  rw [hor] at hres
  rw [← Except.ok.inj hres]
  exact foldKeep_getD m ls hidden target Hpair hlen hj hik hmask

/-- Claim C1: for every hidden tensor and target tensor (with order preserved so
    that entry j is example j's value), an example whose target t lies in tail
    cluster i > 0 receives negative log-likelihood
    -(head_logprob at column head_size - i + tail log-softmax at t - cutoff_ends[i]). -/
theorem C1_tail_decomposition (m : AdaptiveLogSoftmax R) (ls : List R → List R)
    (hidden : List (List R)) (target : List ℤ) (out : List R) (j i : ℕ)
    (Hls : ∀ v, (ls v).length = v.length)
    (Hw0 : (m.out_weights.getD 0 []).length = m.head_size)
    (Hb0 : (m.out_biases.getD 0 []).length = m.head_size)
    (Hpair : List.Pairwise (· ≤ ·) m.cutoff_ends)
    (HNcl : m.cutoffs0 ≠ [])
    (hlen : hidden.length = target.length)
    (hres : m.forward ls hidden target true = .ok out)
    (hj : j < target.length) (hi0 : 1 ≤ i) (hik : i + 1 < m.cutoff_ends.length)
    (hmask : clusterMask m.cutoff_ends i (target.getD j 0) = true) :
    out.getD j 0
      = -(((m.headLogprob ls hidden).getD j []).getD (m.head_size - i) 0
          + (ls (m.logitRow i (hidden.getD j []))).getD
              ((target.getD j 0) - (m.cutoff_ends.getD i 0 : ℤ)).toNat 0) := by
  rw [forward_ok_of_clusters m ls hidden target true HNcl hlen] at hres
  simp only [Bool.or_true] at hres
  rw [← Except.ok.inj hres,
    foldKeep_getD m ls hidden target Hpair hlen hj hik hmask,
    headLogprob_getD m ls hidden (hlen ▸ hj)]
  simp only [AdaptiveLogSoftmax.exampleNLL, if_neg (Nat.one_le_iff_ne_zero.mp hi0)]
  rw [Hls, logitRow_length m 0 _ Hw0 Hb0]

/-- The two modelled error messages differ. -/
theorem gatherRangeMsg_ne : gatherRangeMsg ≠ sizeMismatchMsg := by decide

/-- Claim C7: AdaptiveLogSoftmax.forward reports the size-mismatch error exactly
    when hidden and target disagree on the batch dimension; the check is the
    first thing the call does and the error terminates the call. -/
theorem C7_size_mismatch_iff (m : AdaptiveLogSoftmax R) (ls : List R → List R)
    (hidden : List (List R)) (target : List ℤ) (ko : Bool) :
    m.forward ls hidden target ko = .error sizeMismatchMsg
      ↔ hidden.length ≠ target.length := by
  constructor
  · intro h
    by_contra hc
    rw [AdaptiveLogSoftmax.forward, if_neg (not_not_intro hc)] at h
    by_cases hn : m.n_clusters = 0
    · rw [if_pos hn] at h
      by_cases hall : ((m.headLogprob ls hidden).zip target).all
          (fun rt => decide (0 ≤ rt.2) && decide (rt.2.toNat < rt.1.length)) = true
      · rw [if_pos hall] at h
        exact Except.noConfusion h
      · rw [if_neg hall] at h
        exact gatherRangeMsg_ne (Except.error.inj h)
    · rw [if_neg hn] at h
      exact Except.noConfusion h
  · intro h
    rw [AdaptiveLogSoftmax.forward, if_pos h]

/-- Claim C3: with cutoffs empty (a single head cluster, n_clusters = 0),
    forward returns exactly the standard negative log-softmax of the head logits
    gathered at each target id, and the head covers all n_token classes. -/
theorem C3_single_cluster (m : AdaptiveLogSoftmax R) (ls : List R → List R)
    (hidden : List (List R)) (target : List ℤ) (ko : Bool)
    (HNcl : m.cutoffs0 = [])
    (hlen : hidden.length = target.length)
    (Hls : ∀ v, (ls v).length = v.length)
    (Hw0 : (m.out_weights.getD 0 []).length = m.head_size)
    (Hb0 : (m.out_biases.getD 0 []).length = m.head_size)
    (Htargets : ∀ j, j < target.length →
      0 ≤ target.getD j 0 ∧ target.getD j 0 < (m.n_token : ℤ)) :
    m.forward ls hidden target ko
      = .ok (List.zipWith (fun row t => -(row.getD t.toNat 0))
          (m.headLogprob ls hidden) target)
    ∧ ∀ row ∈ m.headLogprob ls hidden, row.length = m.n_token := by
  have hhs : m.head_size = m.n_token := by
    simp [AdaptiveLogSoftmax.head_size, AdaptiveLogSoftmax.shortlist_size,
      AdaptiveLogSoftmax.n_clusters, AdaptiveLogSoftmax.cutoffs, HNcl]
  have hrows : ∀ row ∈ m.headLogprob ls hidden, row.length = m.n_token := by
    intro row hrow
    rw [AdaptiveLogSoftmax.headLogprob, compute_logit_some, List.map_map] at hrow
    obtain ⟨h, _, rfl⟩ := List.mem_map.mp hrow
    rw [Function.comp_apply, Hls]
    exact (logitRow_length m 0 h Hw0 Hb0).trans hhs
  refine ⟨?_, hrows⟩
  have hn : m.n_clusters = 0 := by
    simp [AdaptiveLogSoftmax.n_clusters, AdaptiveLogSoftmax.cutoffs, HNcl]
  have hall : ((m.headLogprob ls hidden).zip target).all
      (fun rt => decide (0 ≤ rt.2) && decide (rt.2.toNat < rt.1.length)) = true := by
    rw [List.all_eq_true]
    intro rt hrt
    obtain ⟨hr, ht⟩ := List.of_mem_zip hrt
    obtain ⟨jt, hjtlt, hjteq⟩ := List.mem_iff_getElem.mp ht
    have hb := Htargets jt hjtlt
    rw [List.getD_eq_getElem _ _ hjtlt, hjteq] at hb
    have hlen2 := hrows rt.1 hr
    simp only [Bool.and_eq_true, decide_eq_true_eq]
    omega
  rw [AdaptiveLogSoftmax.forward, if_neg (not_not_intro hlen), if_pos hn, if_pos hall]

/-- Claim C9: a cluster whose selection is empty is skipped as a no-op in both
    forward passes: the loop body returns its state unchanged, so the results
    for other clusters are unaffected and no error arises. -/
theorem C9_empty_cluster_noop (me : AdaptiveEmbedding R) (ms : AdaptiveLogSoftmax R)
    (ls : List R → List R) (inp : List ℤ) (hidden : List (List R)) (target : List ℤ)
    (hlp : List (List R)) (ko : Bool) (acc : List (List R)) (st : List R × ℕ)
    (i i2 : ℕ)
    (h1 : idxWhere (clusterMask me.cutoff_ends i) inp = [])
    (h2 : idxWhere (clusterMask ms.cutoff_ends i2) target = []) :
    me.clusterStep inp acc i = acc
      ∧ ms.clusterStep ls hidden target hlp ko st i2 = st := by
  constructor
  · simp [AdaptiveEmbedding.clusterStep, h1]
  · simp [AdaptiveLogSoftmax.clusterStep, h2]

/-! Partition structure of cutoff_ends. -/

theorem getD_append_last (cs : List ℕ) (n : ℕ) : (cs ++ [n]).getD cs.length 0 = n := by
  induction cs with
  | nil => rfl
  | cons a l ih => simpa using ih

theorem chain_lt_cutoff_ends (cs : List ℕ) (n : ℕ)
    (Hchain : List.Chain' (· < ·) cs)
    (Hbnd : ∀ c ∈ cs, 0 < c ∧ c < n) (hn : 0 < n) :
    List.Chain' (· < ·) ((0 : ℕ) :: (cs ++ [n])) := by
  rw [List.chain'_cons']
  constructor
  · intro y hy
    cases cs with
    | nil => simp at hy; omega
    | cons a l =>
      simp at hy
      subst hy
      exact (Hbnd a (List.mem_cons_self _ _)).1
  · rw [List.chain'_append]
    refine ⟨Hchain, List.chain'_singleton n, ?_⟩
    intro x hx y hy
    simp at hy
    subst hy
    have hxm : x ∈ cs := List.mem_of_mem_getLast? hx
    exact (Hbnd x hxm).2

theorem pairwise_lt_cutoff_ends (cs : List ℕ) (n : ℕ)
    (Hchain : List.Chain' (· < ·) cs)
    (Hbnd : ∀ c ∈ cs, 0 < c ∧ c < n) (hn : 0 < n) :
    List.Pairwise (· < ·) ((0 : ℕ) :: (cs ++ [n])) :=
  List.chain'_iff_pairwise.mp (chain_lt_cutoff_ends cs n Hchain Hbnd hn)

theorem clusterMask_exists {ends : List ℕ}
    (Hpair : List.Pairwise (· < ·) ends)
    (h0 : ends.getD 0 0 = 0) (hlen : 2 ≤ ends.length)
    {t : ℤ} (ht0 : 0 ≤ t) (htn : t < (ends.getD (ends.length - 1) 0 : ℤ)) :
    ∃ i, i + 1 < ends.length ∧ clusterMask ends i t = true := by
  set P : ℕ → Prop := fun i => (ends.getD i 0 : ℤ) ≤ t with hP
  set k : ℕ := ends.length - 1 with hk
  have hP0 : P 0 := by
    have h2 : (ends.getD 0 0 : ℤ) ≤ t := by rw [h0]; exact_mod_cast ht0
    exact h2
  set i0 : ℕ := Nat.findGreatest P (k - 1) with hi0
  have hPi : P i0 := Nat.findGreatest_spec (Nat.zero_le _) hP0
  have hle : i0 ≤ k - 1 := Nat.findGreatest_le _
  have hklen : 1 ≤ k := by omega
  have hib : i0 + 1 < ends.length := by omega
  refine ⟨i0, hib, ?_⟩
  have hup : t < (ends.getD (i0 + 1) 0 : ℤ) := by
    by_cases hcase : i0 + 1 ≤ k - 1
    · have hng : ¬P (i0 + 1) :=
        Nat.findGreatest_is_greatest (Nat.lt_succ_self _) hcase
      rw [hP] at hng
      exact lt_of_not_le hng
    · have : i0 + 1 = k := by omega
      rw [this, hk]
      exact htn
  simp only [clusterMask, Bool.and_eq_true, decide_eq_true_eq]
  exact ⟨hPi, hup⟩

theorem clusterIndexOf_eq {ends : List ℕ} (Hpair : List.Pairwise (· ≤ ·) ends)
    {i : ℕ} {t : ℤ} (hik : i + 1 < ends.length) (hm : clusterMask ends i t = true) :
    clusterIndexOf ends t = i := by
  unfold clusterIndexOf
  have hmemF : i ∈ (List.range (ends.length - 1)).filter
      (fun i2 => clusterMask ends i2 t) := by
    rw [List.mem_filter, List.mem_range]
    exact ⟨by omega, hm⟩
  have hne : (List.range (ends.length - 1)).filter (fun i2 => clusterMask ends i2 t)
      ≠ [] := List.ne_nil_of_mem hmemF
  have hh : ((List.range (ends.length - 1)).filter
      (fun i2 => clusterMask ends i2 t)).headD 0
      ∈ (List.range (ends.length - 1)).filter (fun i2 => clusterMask ends i2 t) := by
    cases hF : (List.range (ends.length - 1)).filter (fun i2 => clusterMask ends i2 t) with
    | nil => exact absurd hF hne
    | cons a l => simp
  obtain ⟨hrange, hmask2⟩ := List.mem_filter.mp hh
  by_contra hne2
  have hb2 : ((List.range (ends.length - 1)).filter
      (fun i2 => clusterMask ends i2 t)).headD 0 + 1 < ends.length := by
    have := List.mem_range.mp hrange
    omega
  rw [clusterMask_disjoint Hpair hik hb2 (fun h => hne2 h.symm) hm] at hmask2
  exact Bool.false_ne_true hmask2

/-- Claim C8: for strictly increasing cutoffs inside (0, n_token), the
    constructed cutoff_ends = [0] + cutoffs + [n_token] partitions [0, n_token)
    into contiguous non-overlapping covering ranges: every id in [0, n_token)
    satisfies exactly one cluster's mask, in both forward passes (which share
    the mask through clusterMask over equal cutoff_ends). -/
theorem C8_partition (me : AdaptiveEmbedding R) (ms : AdaptiveLogSoftmax R)
    (hsc : me.cutoffs0 = ms.cutoffs0) (hsn : me.n_token = ms.n_token)
    (Hchain : List.Chain' (· < ·) me.cutoffs0)
    (Hbnd : ∀ c ∈ me.cutoffs0, 0 < c ∧ c < me.n_token)
    (hn : 0 < me.n_token) :
    me.cutoff_ends = 0 :: (me.cutoffs0 ++ [me.n_token])
    ∧ ms.cutoff_ends = me.cutoff_ends
    ∧ ∀ t : ℤ, 0 ≤ t → t < (me.n_token : ℤ) →
        ∃! i, i + 1 < me.cutoff_ends.length
          ∧ clusterMask me.cutoff_ends i t = true := by
  have hends : me.cutoff_ends = 0 :: (me.cutoffs0 ++ [me.n_token]) := rfl
  refine ⟨hends, ?_, ?_⟩
  · rw [AdaptiveLogSoftmax.cutoff_ends, AdaptiveLogSoftmax.cutoffs, hends, ← hsc, ← hsn]
  · intro t ht0 htn
    have Hpair : List.Pairwise (· < ·) me.cutoff_ends := by
      rw [hends]; exact pairwise_lt_cutoff_ends _ _ Hchain Hbnd hn
    have hlast : me.cutoff_ends.getD (me.cutoff_ends.length - 1) 0 = me.n_token := by
      rw [hends]
      have hL : ((0 : ℕ) :: (me.cutoffs0 ++ [me.n_token])).length - 1
          = me.cutoffs0.length + 1 := by simp
      rw [hL, List.getD_cons_succ]
      exact getD_append_last _ _
    obtain ⟨i, hib, hm⟩ := clusterMask_exists Hpair (by rw [hends]; rfl)
      (by rw [hends]; simp) ht0 (by rw [hlast]; exact htn)
    refine ⟨i, ⟨hib, hm⟩, ?_⟩
    rintro y ⟨hyb, hym⟩
    by_contra hne
    rw [clusterMask_disjoint (Hpair.imp le_of_lt) hyb hib hne hym] at hm
    exact Bool.false_ne_true hm

/-! AdaptiveEmbedding: per-row characterisation of the forward pass. -/

theorem foldl_inv {σ : Type} (step : σ → ℕ → σ) (I : σ → Prop) (L : List ℕ) (s0 : σ)
    (hI0 : I s0) (hstep : ∀ s i, i ∈ L → I s → I (step s i)) : I (L.foldl step s0) := by
  induction L generalizing s0 with
  | nil => exact hI0
  | cons a L ih =>
    rw [List.foldl_cons]
    exact ih _ (hstep s0 a (List.mem_cons_self _ _) hI0)
      (fun s i hi hs => hstep s i (List.mem_cons_of_mem _ hi) hs)

theorem mem_indexCopy {α : Type} {xs vals : List α} {idxs : List ℕ} {a : α}
    (ha : a ∈ indexCopy xs idxs vals) : a ∈ xs ∨ a ∈ vals := by
  induction idxs generalizing xs vals with
  | nil => exact Or.inl ha
  | cons i is ih =>
    cases vals with
    | nil => exact Or.inl ha
    | cons v vs =>
      rw [indexCopy_cons] at ha
      rcases ih ha with h | h
      · rcases List.mem_or_eq_of_mem_set h with h2 | h2
        · exact Or.inl h2
        · exact Or.inr (h2 ▸ List.mem_cons_self _ _)
      · exact Or.inr (List.mem_cons_of_mem _ h)

theorem embClusterStep_length (m : AdaptiveEmbedding R) (inp : List ℤ)
    (acc : List (List R)) (i : ℕ) :
    (m.clusterStep inp acc i).length = acc.length := by
  simp only [AdaptiveEmbedding.clusterStep]
  by_cases h : idxWhere (clusterMask m.cutoff_ends i) inp = []
  · simp [h]
  · simp [h, indexCopy_length]

theorem embClusterStep_getD_not_mem (m : AdaptiveEmbedding R) (inp : List ℤ)
    (acc : List (List R)) (i : ℕ) {j : ℕ}
    (hj : j ∉ idxWhere (clusterMask m.cutoff_ends i) inp) :
    (m.clusterStep inp acc i).getD j [] = acc.getD j [] := by
  simp only [AdaptiveEmbedding.clusterStep]
  by_cases h : idxWhere (clusterMask m.cutoff_ends i) inp = []
  · simp [h]
  · simp only [if_neg h]
    exact indexCopy_getD_not_mem _ _ _ _ hj

theorem embClusterStep_getD_mem (m : AdaptiveEmbedding R) (inp : List ℤ)
    (acc : List (List R)) (i : ℕ) {j : ℕ} (hacc : acc.length = inp.length)
    (hj : j ∈ idxWhere (clusterMask m.cutoff_ends i) inp) :
    (m.clusterStep inp acc i).getD j [] = m.clusterRow i (inp.getD j 0) := by
  simp only [AdaptiveEmbedding.clusterStep]
  rw [if_neg (List.ne_nil_of_mem hj), List.map_map, List.map_map]
  have hw := indexCopy_getD_map_mem ([] : List R) acc _
    (((fun e => matVec (m.emb_projs.getD i []) e)
      ∘ (fun t => (m.emb_layers.getD i []).getD t []))
        ∘ (fun j2 => (inp.getD j2 0 - (m.cutoff_ends.getD i 0 : ℤ)).toNat))
    hj (idxWhere_nodup _ _) (by rw [hacc]; exact (idxWhere_mem.mp hj).1)
  rw [hw]
  rfl

theorem embFold_getD (m : AdaptiveEmbedding R) (inp : List ℤ)
    (Hpair : List.Pairwise (· ≤ ·) m.cutoff_ends)
    {j i : ℕ} (hj : j < inp.length) (hik : i + 1 < m.cutoff_ends.length)
    (hmask : clusterMask m.cutoff_ends i (inp.getD j 0) = true) :
    ((List.range m.cutoffs.length).foldl (m.clusterStep inp)
        (List.replicate inp.length (List.replicate m.d_proj 0))).getD j []
      = m.clusterRow i (inp.getD j 0) := by
  have hkl : m.cutoffs.length + 1 = m.cutoff_ends.length := by
    simp [AdaptiveEmbedding.cutoff_ends]
  refine foldl_val_establish (m.clusterStep inp)
    (fun s : List (List R) => s.getD j [])
    (fun s : List (List R) => s.length = inp.length)
    (List.range m.cutoffs.length) i (m.clusterRow i (inp.getD j 0)) _ (by simp)
    ?_ ?_ ?_ ?_
  · exact fun s i2 hs => (embClusterStep_length m inp s i2).trans hs
  · intro s i2 hi2 hne hs
    refine embClusterStep_getD_not_mem m inp s i2 (fun hmem => ?_)
    have hmask2 : clusterMask m.cutoff_ends i2 (inp.getD j 0) = true :=
      (idxWhere_mem.mp hmem).2
    have hi2b : i2 + 1 < m.cutoff_ends.length := by
      have := List.mem_range.mp hi2
      omega
    rw [clusterMask_disjoint Hpair hik hi2b (fun h => hne (h ▸ rfl)) hmask] at hmask2
    exact Bool.false_ne_true hmask2
  · intro s hs
    exact embClusterStep_getD_mem m inp s i hs (idxWhere_mem.mpr ⟨hj, hmask⟩)
  · exact List.mem_range.mpr (by omega)

/-- Claim C2: on an id tensor with all entries in [0, n_token), forward returns
    one row per input position, each of width d_proj, and the row at a position
    holding id t of cluster i is emb_scale (modelling sqrt d_proj) times the
    cluster's projection applied to row t - cutoff_ends[i] of cluster i's table,
    independently of the other ids and of cluster order. -/
theorem C2_embedding_rows (m : AdaptiveEmbedding R) (inp : List ℤ) (j i : ℕ)
    (Hpair : List.Pairwise (· ≤ ·) m.cutoff_ends)
    (Hprojs : ∀ i2, i2 < m.cutoffs.length → (m.emb_projs.getD i2 []).length = m.d_proj)
    (Hids : ∀ j2, j2 < inp.length →
      0 ≤ inp.getD j2 0 ∧ inp.getD j2 0 < (m.n_token : ℤ))
    (hj : j < inp.length) (hik : i + 1 < m.cutoff_ends.length)
    (hmask : clusterMask m.cutoff_ends i (inp.getD j 0) = true) :
    (m.forward inp).length = inp.length
    ∧ (∀ row ∈ m.forward inp, row.length = m.d_proj)
    ∧ (m.forward inp).getD j []
        = (m.clusterRow i (inp.getD j 0)).map (fun x => m.emb_scale * x) := by
  have hinv : ((List.range m.cutoffs.length).foldl (m.clusterStep inp)
        (List.replicate inp.length (List.replicate m.d_proj 0))).length = inp.length
      ∧ ∀ row ∈ (List.range m.cutoffs.length).foldl (m.clusterStep inp)
        (List.replicate inp.length (List.replicate m.d_proj 0)),
          row.length = m.d_proj := by
    refine foldl_inv (m.clusterStep inp)
      (fun s : List (List R) => s.length = inp.length
        ∧ ∀ row ∈ s, row.length = m.d_proj) _ _
      ⟨by simp, fun row hrow => by
        rw [List.eq_of_mem_replicate hrow]; exact List.length_replicate _ _⟩ ?_
    intro s i2 hi2 ⟨hs1, hs2⟩
    refine ⟨(embClusterStep_length m inp s i2).trans hs1, ?_⟩
    intro row hrow
    simp only [AdaptiveEmbedding.clusterStep] at hrow
    by_cases h : idxWhere (clusterMask m.cutoff_ends i2) inp = []
    · rw [if_pos h] at hrow
      exact hs2 row hrow
    · rw [if_neg h] at hrow
      rcases mem_indexCopy hrow with h2 | h2
      · exact hs2 row h2
      · obtain ⟨e, _, rfl⟩ := List.mem_map.mp h2
        simp only [matVec, List.length_map]
        exact Hprojs i2 (List.mem_range.mp hi2)
  refine ⟨?_, ?_, ?_⟩
  · simp only [AdaptiveEmbedding.forward, List.length_map]
    exact hinv.1
  · intro row hrow
    simp only [AdaptiveEmbedding.forward] at hrow
    obtain ⟨r, hr, rfl⟩ := List.mem_map.mp hrow
    rw [List.length_map]
    exact hinv.2 r hr
  · simp only [AdaptiveEmbedding.forward]
    rw [getD_map_of_lt _ _ [] [] (by rw [hinv.1]; exact hj)]
    rw [embFold_getD m inp Hpair hj hik hmask]

/-! The non-keep_order path: output slots are filled contiguously in
    cluster-processing order. -/

theorem cutoff_ends_getD_last (cs : List ℕ) (n : ℕ) :
    ((0 : ℕ) :: (cs ++ [n])).getD (((0 : ℕ) :: (cs ++ [n])).length - 1) 0 = n := by
  have hL : ((0 : ℕ) :: (cs ++ [n])).length - 1 = cs.length + 1 := by simp
  rw [hL, List.getD_cons_succ]
  exact getD_append_last _ _

theorem clusterLogprob_length (m : AdaptiveLogSoftmax R) (ls : List R → List R)
    (hidden : List (List R)) (target : List ℤ) (hlp : List (List R)) (i : ℕ)
    (indices : List ℕ) :
    (m.clusterLogprob ls hidden target hlp i indices).length = indices.length := by
  unfold AdaptiveLogSoftmax.clusterLogprob
  by_cases hi : i = 0
  · subst hi; simp
  · simp [hi, compute_logit]

theorem clusterStep_noKeep (m : AdaptiveLogSoftmax R) (ls : List R → List R)
    (hidden : List (List R)) (target : List ℤ) (hlp : List (List R)) (i : ℕ)
    (w z : List R)
    (hne : idxWhere (clusterMask m.cutoff_ends i) target ≠ []) :
    m.clusterStep ls hidden target hlp false (w ++ z, w.length) i
      = (w ++ ((m.clusterLogprob ls hidden target hlp i
            (idxWhere (clusterMask m.cutoff_ends i) target)).map (fun x => -x))
          ++ z.drop (m.clusterLogprob ls hidden target hlp i
            (idxWhere (clusterMask m.cutoff_ends i) target)).length,
        w.length + (m.clusterLogprob ls hidden target hlp i
            (idxWhere (clusterMask m.cutoff_ends i) target)).length) := by
  simp only [AdaptiveLogSoftmax.clusterStep, if_neg hne, Bool.false_eq_true, if_false]
  rw [sliceCopy, List.length_map, List.take_left, List.drop_append, List.append_assoc]

theorem foldNoKeep_eq (m : AdaptiveLogSoftmax R) (ls : List R → List R)
    (hidden : List (List R)) (target : List ℤ) (hlp : List (List R)) (L : List ℕ) :
    ∀ (w : List R),
    w.length + (L.map (fun i2 =>
        (idxWhere (clusterMask m.cutoff_ends i2) target).length)).sum ≤ target.length →
    L.foldl (m.clusterStep ls hidden target hlp false)
        (w ++ List.replicate (target.length - w.length) 0, w.length)
      = (w ++ ((L.flatMap (fun i2 => (m.clusterLogprob ls hidden target hlp i2
            (idxWhere (clusterMask m.cutoff_ends i2) target)).map (fun x => -x)))
          ++ List.replicate (target.length - w.length
              - (L.map (fun i2 =>
                  (idxWhere (clusterMask m.cutoff_ends i2) target).length)).sum) 0),
        w.length + (L.map (fun i2 =>
            (idxWhere (clusterMask m.cutoff_ends i2) target).length)).sum) := by
  induction L with
  | nil => intro w hw; simp
  | cons a L ih =>
    intro w hw
    rw [List.foldl_cons]
    by_cases ha : idxWhere (clusterMask m.cutoff_ends a) target = []
    · have hstep : m.clusterStep ls hidden target hlp false
          (w ++ List.replicate (target.length - w.length) 0, w.length) a
          = (w ++ List.replicate (target.length - w.length) 0, w.length) := by
        simp [AdaptiveLogSoftmax.clusterStep, ha]
      rw [hstep, ih w (by simpa [ha] using hw)]
      have hnil : m.clusterLogprob ls hidden target hlp a [] = [] :=
        List.eq_nil_of_length_eq_zero (clusterLogprob_length m ls hidden target hlp a [])
      simp [ha, hnil]
    · have hcn : (m.clusterLogprob ls hidden target hlp a
          (idxWhere (clusterMask m.cutoff_ends a) target)).length
          = (idxWhere (clusterMask m.cutoff_ends a) target).length :=
        clusterLogprob_length m ls hidden target hlp a _
      have hbound : w.length + (idxWhere (clusterMask m.cutoff_ends a) target).length
          ≤ target.length := by
        simp only [List.map_cons, List.sum_cons] at hw
        omega
      have hstep := clusterStep_noKeep m ls hidden target hlp a w
        (List.replicate (target.length - w.length) 0) ha
      rw [List.drop_replicate, hcn] at hstep
      rw [hstep]
      have hww : w.length + (idxWhere (clusterMask m.cutoff_ends a) target).length
          = (w ++ (m.clusterLogprob ls hidden target hlp a
              (idxWhere (clusterMask m.cutoff_ends a) target)).map
                (fun x => -x)).length := by
        rw [List.length_append, List.length_map, hcn]
      have hrr : target.length - w.length
            - (idxWhere (clusterMask m.cutoff_ends a) target).length
          = target.length - (w ++ (m.clusterLogprob ls hidden target hlp a
              (idxWhere (clusterMask m.cutoff_ends a) target)).map
                (fun x => -x)).length := by
        omega
      rw [hrr, hww]
      have hside : (w ++ (m.clusterLogprob ls hidden target hlp a
            (idxWhere (clusterMask m.cutoff_ends a) target)).map
              (fun x => -x)).length
          + (L.map (fun i2 =>
              (idxWhere (clusterMask m.cutoff_ends i2) target).length)).sum
          ≤ target.length := by
        simp only [List.map_cons, List.sum_cons] at hw
        omega
      rw [ih _ hside]
      refine Prod.ext ?_ ?_
      · simp only [List.flatMap_cons]
        have hcc : target.length - (w ++ (m.clusterLogprob ls hidden target hlp a
              (idxWhere (clusterMask m.cutoff_ends a) target)).map
                (fun x => -x)).length
            - (L.map (fun i2 =>
                (idxWhere (clusterMask m.cutoff_ends i2) target).length)).sum
            = target.length - w.length
            - ((a :: L).map (fun i2 =>
                (idxWhere (clusterMask m.cutoff_ends i2) target).length)).sum := by
          simp only [List.map_cons, List.sum_cons]
          omega
        rw [hcc]
        simp [List.append_assoc]
      · simp only [List.map_cons, List.sum_cons]
        omega

/-! Permutation structure of the cluster-order output. -/

theorem flatMap_idx_perm (ends : List ℕ) (target : List ℤ) (k : ℕ)
    (Hpair : List.Pairwise (· ≤ ·) ends)
    (hbound : ∀ i, i < k → i + 1 < ends.length)
    (Hcover : ∀ j, j < target.length →
      ∃ i, i < k ∧ clusterMask ends i (target.getD j 0) = true) :
    List.Perm
      ((List.range k).flatMap (fun i => idxWhere (clusterMask ends i) target))
      (List.range target.length) := by
  refine (List.perm_ext_iff_of_nodup ?_ (List.nodup_range _)).mpr ?_
  · rw [List.nodup_flatMap]
    refine ⟨fun i hi => idxWhere_nodup _ _, ?_⟩
    refine List.pairwise_iff_get.mpr ?_
    intro a b hab
    simp only [Function.onFun, List.get_eq_getElem, List.getElem_range]
    intro j hj1 hj2
    have hm1 := (idxWhere_mem.mp hj1).2
    have hm2 := (idxWhere_mem.mp hj2).2
    have hvab : (a : ℕ) < (b : ℕ) := hab
    have hb1 : (a : ℕ) + 1 < ends.length := hbound _ (by simpa using a.2)
    have hb2 : (b : ℕ) + 1 < ends.length := hbound _ (by simpa using b.2)
    rw [clusterMask_disjoint Hpair hb1 hb2 (Nat.ne_of_lt hvab) hm1] at hm2
    exact Bool.false_ne_true hm2
  · intro j
    simp only [List.mem_flatMap, List.mem_range, idxWhere_mem]
    constructor
    · rintro ⟨i, hik, hjl, hm⟩
      exact hjl
    · intro hj
      obtain ⟨i, hik, hm⟩ := Hcover j hj
      exact ⟨i, hik, hj, hm⟩

theorem foldKeep_eq_map (m : AdaptiveLogSoftmax R) (ls : List R → List R)
    (hidden : List (List R)) (target : List ℤ)
    (Hpair : List.Pairwise (· ≤ ·) m.cutoff_ends)
    (hlen : hidden.length = target.length)
    (Hcover : ∀ j, j < target.length → ∃ i, i + 1 < m.cutoff_ends.length
        ∧ clusterMask m.cutoff_ends i (target.getD j 0) = true) :
    ((List.range (m.cutoff_ends.length - 1)).foldl
        (m.clusterStep ls hidden target (m.headLogprob ls hidden) true)
        (List.replicate target.length 0, 0)).1
      = (List.range target.length).map (fun j => m.exampleNLL ls (hidden.getD j [])
          (target.getD j 0) (clusterIndexOf m.cutoff_ends (target.getD j 0))) := by
  have hflen : ((List.range (m.cutoff_ends.length - 1)).foldl
      (m.clusterStep ls hidden target (m.headLogprob ls hidden) true)
      (List.replicate target.length 0, 0)).1.length = target.length :=
    foldl_inv (m.clusterStep ls hidden target (m.headLogprob ls hidden) true)
      (fun s : List R × ℕ => s.1.length = target.length)
      (List.range (m.cutoff_ends.length - 1)) (List.replicate target.length 0, 0)
      (by simp)
      (fun s i2 hi2 hs => (clusterStep_keep_fst_length m ls hidden target _ s i2).trans hs)
  refine List.ext_getElem (by rw [hflen]; simp) ?_
  intro n h1 h2
  have hn : n < target.length := by rw [hflen] at h1; exact h1
  obtain ⟨i, hib, hm⟩ := Hcover n hn
  have hval := foldKeep_getD m ls hidden target Hpair hlen hn hib hm
  rw [← List.getD_eq_getElem _ 0 h1, hval, List.getElem_map, List.getElem_range,
    clusterIndexOf_eq Hpair hib hm]

/-- Claim C5: with keep_order false at construction and call, the output is the
    concatenation, in cluster order 0..k-1, of the per-cluster negated
    log-probability vectors (each cluster's examples in original relative
    order), written into contiguous output slots; it is a permutation of the
    keep_order output on the same inputs. -/
theorem C5_cluster_order_output (m : AdaptiveLogSoftmax R) (ls : List R → List R)
    (hidden : List (List R)) (target : List ℤ)
    (hko : m.keep_order = false)
    (HNcl : m.cutoffs0 ≠ [])
    (Hchain : List.Chain' (· < ·) m.cutoffs0)
    (Hbnd : ∀ c ∈ m.cutoffs0, 0 < c ∧ c < m.n_token)
    (hn : 0 < m.n_token)
    (hlen : hidden.length = target.length)
    (Htargets : ∀ j, j < target.length →
      0 ≤ target.getD j 0 ∧ target.getD j 0 < (m.n_token : ℤ)) :
    m.forward ls hidden target false = .ok (m.concatOut ls hidden target)
    ∧ ∀ outT, m.forward ls hidden target true = .ok outT
        → List.Perm (m.concatOut ls hidden target) outT := by
  have hends : m.cutoff_ends = 0 :: (m.cutoffs0 ++ [m.n_token]) := rfl
  have Hpairlt : List.Pairwise (· < ·) m.cutoff_ends := by
    rw [hends]; exact pairwise_lt_cutoff_ends _ _ Hchain Hbnd hn
  have Hpair : List.Pairwise (· ≤ ·) m.cutoff_ends := Hpairlt.imp le_of_lt
  have hlen2 : 2 ≤ m.cutoff_ends.length := by rw [hends]; simp
  have hlast : m.cutoff_ends.getD (m.cutoff_ends.length - 1) 0 = m.n_token := by
    rw [hends]; exact cutoff_ends_getD_last _ _
  have Hcover : ∀ j, j < target.length → ∃ i, i + 1 < m.cutoff_ends.length
      ∧ clusterMask m.cutoff_ends i (target.getD j 0) = true := by
    intro j hj
    obtain ⟨h0, h1⟩ := Htargets j hj
    exact clusterMask_exists Hpairlt (by rw [hends]; rfl) hlen2 h0
      (by rw [hlast]; exact h1)
  have Hcover2 : ∀ j, j < target.length → ∃ i, i < m.cutoff_ends.length - 1
      ∧ clusterMask m.cutoff_ends i (target.getD j 0) = true := by
    intro j hj
    obtain ⟨i, hib, hm⟩ := Hcover j hj
    exact ⟨i, by omega, hm⟩
  have hbound : ∀ i, i < m.cutoff_ends.length - 1 → i + 1 < m.cutoff_ends.length := by
    intro i hi; omega
  have hperm := flatMap_idx_perm m.cutoff_ends target (m.cutoff_ends.length - 1)
    Hpair hbound Hcover2
  have hsum : ((List.range (m.cutoff_ends.length - 1)).map (fun i2 =>
      (idxWhere (clusterMask m.cutoff_ends i2) target).length)).sum
      = target.length := by
    have hJ := hperm.length_eq
    rw [List.length_range] at hJ
    rw [← hJ, List.flatMap_def, List.length_flatten, List.map_map]
    rfl
  constructor
  · rw [forward_ok_of_clusters m ls hidden target false HNcl hlen, hko]
    have hfold := foldNoKeep_eq m ls hidden target (m.headLogprob ls hidden)
      (List.range (m.cutoff_ends.length - 1)) []
      (by simpa using le_of_eq hsum)
    simp only [List.nil_append, List.length_nil, Nat.sub_zero, Nat.zero_add] at hfold
    rw [Bool.false_or, hfold, hsum]
    simp [AdaptiveLogSoftmax.concatOut, Nat.sub_self]
  · intro outT houtT
    rw [forward_ok_of_clusters m ls hidden target true HNcl hlen] at houtT
    simp only [Bool.or_true] at houtT
    rw [← Except.ok.inj houtT, foldKeep_eq_map m ls hidden target Hpair hlen Hcover]
    have hconcat : m.concatOut ls hidden target
        = ((List.range (m.cutoff_ends.length - 1)).flatMap
            (fun i => idxWhere (clusterMask m.cutoff_ends i) target)).map
            (fun j => m.exampleNLL ls (hidden.getD j []) (target.getD j 0)
              (clusterIndexOf m.cutoff_ends (target.getD j 0))) := by
      rw [List.map_flatMap]
      unfold AdaptiveLogSoftmax.concatOut
      refine List.flatMap_congr (fun i hi => ?_)
      rw [clusterLogprob_eq_map m ls hidden target hlen i _
        (fun j2 hj2 => (idxWhere_mem.mp hj2).1), List.map_map]
      refine List.map_congr_left (fun j hj => ?_)
      have hm := (idxWhere_mem.mp hj).2
      have hib : i + 1 < m.cutoff_ends.length := hbound i (List.mem_range.mp hi)
      simp only [Function.comp_apply, neg_neg, clusterIndexOf_eq Hpair hib hm]
    rw [hconcat]
    exact hperm.map _

/-! Out-of-range ids: no cluster mask matches. -/

theorem cutoff_ends_getD_le (cs : List ℕ) (n : ℕ) (i2 : ℕ)
    (Hle : ∀ c ∈ cs, c ≤ n) :
    ((0 : ℕ) :: (cs ++ [n])).getD i2 0 ≤ n := by
  cases i2 with
  | zero => simp
  | succ i3 =>
    rw [List.getD_cons_succ]
    by_cases hlt : i3 < (cs ++ [n]).length
    · rw [List.getD_eq_getElem _ _ hlt]
      have hm : (cs ++ [n])[i3] ∈ cs ++ [n] := List.getElem_mem _
      rcases List.mem_append.mp hm with h3 | h3
      · exact Hle _ h3
      · simp at h3; omega
    · rw [List.getD_eq_default _ _ (by omega)]
      omega

theorem clusterMask_out_of_range {cs : List ℕ} {n : ℕ} {t : ℤ}
    (Hle : ∀ c ∈ cs, c ≤ n) (hout : t < 0 ∨ (n : ℤ) ≤ t) (i : ℕ) :
    clusterMask ((0 : ℕ) :: (cs ++ [n])) i t = false := by
  cases hb : clusterMask ((0 : ℕ) :: (cs ++ [n])) i t
  · rfl
  · exfalso
    obtain ⟨hl, hr⟩ := clusterMask_le hb
    rcases hout with h | h
    · have hge : (0 : ℤ) ≤ ((((0 : ℕ) :: (cs ++ [n])).getD i 0 : ℕ) : ℤ) :=
        Int.ofNat_nonneg _
      omega
    · have hub := cutoff_ends_getD_le cs n (i+1) Hle
      have hcast : ((((0 : ℕ) :: (cs ++ [n])).getD (i+1) 0 : ℕ) : ℤ) ≤ (n : ℤ) := by
        exact_mod_cast hub
      omega

/-- Claim C6 (amended): an id outside [0, n_token) matches no cluster mask. In
    AdaptiveEmbedding.forward the corresponding output row is left as zero, for
    every configuration of cutoffs bounded by n_token. In
    AdaptiveLogSoftmax.forward the same holds, and no error is raised, provided
    there is at least one tail cluster (cutoffs nonempty) and order preservation
    is in effect; the original claim's unrestricted form fails (see the
    counterexample). -/
theorem C6_out_of_range_amended (me : AdaptiveEmbedding R) (ms : AdaptiveLogSoftmax R)
    (ls : List R → List R) (inp : List ℤ) (hidden : List (List R)) (target : List ℤ)
    (ko : Bool) (j js : ℕ)
    (Hle : ∀ c ∈ me.cutoffs0, c ≤ me.n_token)
    (hj : j < inp.length)
    (hout : inp.getD j 0 < 0 ∨ (me.n_token : ℤ) ≤ inp.getD j 0)
    (HNcl : ms.cutoffs0 ≠ [])
    (Hles : ∀ c ∈ ms.cutoffs0, c ≤ ms.n_token)
    (hlens : hidden.length = target.length)
    (heff : (ms.keep_order || ko) = true)
    (hjs : js < target.length)
    (houts : target.getD js 0 < 0 ∨ (ms.n_token : ℤ) ≤ target.getD js 0) :
    (me.forward inp).getD j [] = List.replicate me.d_proj 0
    ∧ ∃ out, ms.forward ls hidden target ko = .ok out ∧ out.getD js 0 = 0 := by
  constructor
  · have hnomask : ∀ i, clusterMask me.cutoff_ends i (inp.getD j 0) = false :=
      fun i => clusterMask_out_of_range Hle hout i
    have hflen : ((List.range me.cutoffs.length).foldl (me.clusterStep inp)
        (List.replicate inp.length (List.replicate me.d_proj 0))).length
        = inp.length :=
      foldl_inv (me.clusterStep inp)
        (fun s : List (List R) => s.length = inp.length) _ _ (by simp)
        (fun s i2 hi2 hs => (embClusterStep_length me inp s i2).trans hs)
    have hpres : ((List.range me.cutoffs.length).foldl (me.clusterStep inp)
        (List.replicate inp.length (List.replicate me.d_proj 0))).getD j []
        = (List.replicate inp.length (List.replicate me.d_proj (0 : R))).getD j [] := by
      refine foldl_val_preserve (me.clusterStep inp)
        (fun s : List (List R) => s.getD j []) (fun s => True) _ _ trivial
        (fun s i2 hT => trivial) ?_
      intro s i2 hi2 hT
      refine embClusterStep_getD_not_mem me inp s i2 (fun hmem => ?_)
      have hmm := (idxWhere_mem.mp hmem).2
      rw [hnomask i2] at hmm
      exact Bool.false_ne_true hmm
    simp only [AdaptiveEmbedding.forward]
    rw [getD_map_of_lt _ _ [] [] (by rw [hflen]; exact hj), hpres,
      List.getD_eq_getElem _ _ (by simpa using hj), List.getElem_replicate]
    simp
  · rw [forward_ok_of_clusters ms ls hidden target ko HNcl hlens, heff]
    refine ⟨_, rfl, ?_⟩
    have hnomask : ∀ i, clusterMask ms.cutoff_ends i (target.getD js 0) = false :=
      fun i => clusterMask_out_of_range Hles houts i
    have hpres : ((List.range (ms.cutoff_ends.length - 1)).foldl
        (ms.clusterStep ls hidden target (ms.headLogprob ls hidden) true)
        (List.replicate target.length 0, 0)).1.getD js 0
        = ((List.replicate target.length (0 : R), 0) : List R × ℕ).1.getD js 0 := by
      refine foldl_val_preserve
        (ms.clusterStep ls hidden target (ms.headLogprob ls hidden) true)
        (fun s : List R × ℕ => s.1.getD js 0) (fun s => True) _ _ trivial
        (fun s i2 hT => trivial) ?_
      intro s i2 hi2 hT
      refine clusterStep_getD_not_mem ms ls hidden target _ s i2 (fun hmem => ?_)
      have hmm := (idxWhere_mem.mp hmem).2
      rw [hnomask i2] at hmm
      exact Bool.false_ne_true hmm
    rw [hpres, List.getD_eq_getElem _ _ (by simpa using hjs), List.getElem_replicate]

end Flop

namespace Flop

/-! Witness theorems at the concrete instances. -/

/-- Witness for C4 at a concrete input: hidden [[1],[1],[1]], targets [3,0,2],
    position 0 whose target 3 lies in tail cluster 1. -/
theorem C4_witness :
    alsEx.cutoffs0 ≠ [] ∧
    ([-10, -1, -8] : List ℤ).getD 0 0 = alsEx.exampleNLL id [1] 3 1 :=
  ⟨by decide, C4_keep_order_positional alsEx id [[1], [1], [1]] [3, 0, 2]
    [-10, -1, -8] 0 1 (by decide) (by decide) rfl (by decide) (by rfl) (by decide)
    (by decide) (by decide)⟩

/-- Witness for C10 at a concrete input: module constructed with keep_order true,
    called with keep_order false; position 2 keeps its value. -/
theorem C10_witness :
    (alsExKeep.keep_order = true ∨ false = true) ∧
    ([-10, -1, -8] : List ℤ).getD 2 0 = alsExKeep.exampleNLL id [1] 2 1 :=
  ⟨Or.inl rfl, C10_keep_order_is_or alsExKeep id [[1], [1], [1]] [3, 0, 2] false
    [-10, -1, -8] 2 1 (by decide) (by decide) rfl (Or.inl rfl) (by rfl) (by decide)
    (by decide) (by decide)⟩

/-- Witness for C1 at a concrete input: target 3 in tail cluster 1, head column
    head_size - 1 = 2. -/
theorem C1_witness :
    alsEx.cutoffs0 ≠ [] ∧
    ([-10, -1, -8] : List ℤ).getD 0 0
      = -(((alsEx.headLogprob id [[1], [1], [1]]).getD 0 []).getD (alsEx.head_size - 1) 0
          + (id (alsEx.logitRow 1 [1])).getD
              ((3 : ℤ) - (alsEx.cutoff_ends.getD 1 0 : ℤ)).toNat 0) :=
  ⟨by decide, C1_tail_decomposition alsEx id [[1], [1], [1]] [3, 0, 2] [-10, -1, -8]
    0 1 (fun v => rfl) (by decide) (by decide) (by decide) (by decide) rfl (by rfl)
    (by decide) (by decide) (by decide) (by decide)⟩

/-- Witness for C3 at a concrete input with empty cutoffs. -/
theorem C3_witness :
    alsFlat.cutoffs0 = [] ∧
    (alsFlat.forward id [[1]] ([1] : List ℤ) false
      = .ok (List.zipWith (fun row t => -(row.getD t.toNat 0))
          (alsFlat.headLogprob id [[1]]) ([1] : List ℤ))
     ∧ ∀ row ∈ alsFlat.headLogprob id [[1]], row.length = alsFlat.n_token) :=
  ⟨rfl, C3_single_cluster alsFlat id [[1]] ([1] : List ℤ) false rfl rfl (fun v => rfl)
    (by decide) (by decide) (by decide)⟩

/-- Witness for C8 at concrete modules sharing cutoffs [2] and n_token 4. -/
theorem C8_witness :
    0 < embEx.n_token ∧
    (embEx.cutoff_ends = 0 :: (embEx.cutoffs0 ++ [embEx.n_token])
     ∧ alsEx.cutoff_ends = embEx.cutoff_ends
     ∧ ∀ t : ℤ, 0 ≤ t → t < (embEx.n_token : ℤ) →
        ∃! i, i + 1 < embEx.cutoff_ends.length
          ∧ clusterMask embEx.cutoff_ends i t = true) :=
  ⟨by decide, C8_partition embEx alsEx rfl rfl (List.chain'_singleton 2) (by decide)
    (by decide)⟩

/-- Witness for C2 at a concrete input: ids [0, 3, 2], position 1 holding id 3
    of tail cluster 1. -/
theorem C2_witness :
    (1 : ℕ) + 1 < embEx.cutoff_ends.length ∧
    ((embEx.forward [0, 3, 2]).length = 3
     ∧ (∀ row ∈ embEx.forward [0, 3, 2], row.length = embEx.d_proj)
     ∧ (embEx.forward [0, 3, 2]).getD 1 []
        = (embEx.clusterRow 1 3).map (fun x => embEx.emb_scale * x)) :=
  ⟨by decide, C2_embedding_rows embEx [0, 3, 2] 1 1 (by decide) (by decide)
    (by decide) (by decide) (by decide) (by decide)⟩

/-- Witness for C5 at a concrete input: the non-keep_order output is the
    cluster-order concatenation and a permutation of the keep_order output. -/
theorem C5_witness :
    alsEx.keep_order = false ∧
    (alsEx.forward id [[1], [1], [1]] [3, 0, 2] false
       = .ok (alsEx.concatOut id [[1], [1], [1]] [3, 0, 2])
     ∧ ∀ outT, alsEx.forward id [[1], [1], [1]] [3, 0, 2] true = .ok outT
        → List.Perm (alsEx.concatOut id [[1], [1], [1]] [3, 0, 2]) outT) :=
  ⟨rfl, C5_cluster_order_output alsEx id [[1], [1], [1]] [3, 0, 2] rfl (by decide)
    (List.chain'_singleton 2) (by decide) (by decide) rfl (by decide)⟩

/-- Counterexample to claim C6 as stated: with empty cutoffs an out-of-range
    target hits the unguarded head gather, which raises (modelled error), and
    without keep_order the output entry at an out-of-range target's position is
    not left zero but overwritten by another example's value. -/
theorem C6_counterexample :
    alsFlat.forward id [[1]] ([5] : List ℤ) false = .error gatherRangeMsg
    ∧ alsEx.forward id [[1], [1]] ([5, 0] : List ℤ) false = .ok [-1, 0]
    ∧ ((-1 : ℤ) ≠ 0) :=
  ⟨rfl, rfl, by decide⟩

/-- Witness for the amended C6 at concrete inputs: id 7 and target 5 are out of
    range for n_token 4; the embedding row stays zero and, with keep_order in
    effect, the softmax entry stays zero with no error. -/
theorem C6_witness :
    ((7 : ℤ) < 0 ∨ (embEx.n_token : ℤ) ≤ 7) ∧
    ((embEx.forward [7, 0]).getD 0 [] = List.replicate embEx.d_proj 0
     ∧ ∃ out, alsEx.forward id [[1], [1]] [5, 0] true = .ok out
        ∧ out.getD 0 0 = 0) :=
  ⟨by decide, C6_out_of_range_amended embEx alsEx id [7, 0] [[1], [1]] [5, 0]
    true 0 0 (by decide) (by decide) (by decide) (by decide) (by decide) rfl
    (by decide) (by decide) (by decide)⟩

/-- Witness for C9 at a concrete input: cluster 1 selects nothing for the id
    list [0] and the target list [0], so both loop bodies are the identity. -/
theorem C9_witness :
    idxWhere (clusterMask embEx.cutoff_ends 1) [0] = [] ∧
    (embEx.clusterStep [0] [[5, 5]] 1 = [[5, 5]]
      ∧ alsEx.clusterStep id [] [0] [] false ([7], 2) 1 = ([7], 2)) :=
  ⟨by decide, C9_empty_cluster_noop embEx alsEx id [0] [] [0] [] false [[5, 5]]
    ([7], 2) 1 1 (by decide) (by decide)⟩

end Flop
